import Mathlib

/-!
Verification of the field-reconstruction routines of `load_files.py`.

The module post-processes phase-field simulation output.  Its core is
`get_field` (the "painter"): given per-timestep 2D rank grids, the timestep
axis, the sorted list of loaded ranks and a per-rank-per-time scalar array,
it paints each grid pixel with the scalar of the rank occupying it, and
`load_property` (the "property resolver"): given a property name it builds
dense `[num_timesteps, num_ranks]` arrays from the per-cell tables, deriving
angle fields with `np.arctan2` and a nematic-angle formula.

Shallow embedding conventions:
* numpy arrays are nested `List`s; raw data entries are kept generic in a
  scalar type `α` with a zero (the structural code never inspects them),
  and the real-valued angle computations use `ℝ`;
* a numpy fancy index read/write that can raise is modelled in
  `Except String`; plain element reads that are always in bounds in the
  program are modelled with `List.getD` and a default;
* the rank grids hold `Int` labels (the unoccupied sentinel is any value
  that is not a loaded rank), the loaded ranks are `Nat`s.
-/

namespace LoadFiles

/-- One per-cell table, as produced by `load_pos`: the columns of the
pandas frame that `load_property` reads, each a time-indexed series. -/
structure CellTable (α : Type) where
  v0 : List α
  v1 : List α
  S0 : List α
  S1 : List α
  S0full : List α
  S1full : List α

/-- `positions[i]` — a Python list read, raising `IndexError` when out of
bounds (ranks are non-negative, so no Python negative indexing arises). -/
def pyGet {β : Type} (l : List β) (i : Nat) : Except String β :=
  if h : i < l.length then .ok (l.get ⟨i, h⟩) else .error "IndexError"

/-- `np.zeros([n, m])` as a list of `n` rows of `m` zeros. -/
def zeros2 (α : Type) [Zero α] (n m : Nat) : List (List α) :=
  List.replicate n (List.replicate m (0 : α))

/-- `arr[:, j] = col` on a 2D array allocated with width `w`: numpy raises
`IndexError` when `j ≥ w` and a broadcast `ValueError` when the column
length differs from the number of rows; otherwise entry `j` of every row
is replaced by the corresponding element of `col`. -/
def setCol {α : Type} (w : Nat) (arr : List (List α)) (j : Nat)
    (col : List α) : Except String (List (List α)) :=
  if j < w ∧ col.length = arr.length then
    .ok (List.zipWith (fun row v => row.set j v) arr col)
  else
    .error "IndexError"

/-- The column-filling loop of `load_property`:
`for rank in ranks: arr[:, rank] = sel(positions[rank])`,
threaded through `Except` because both the list read and the column
assignment can raise. -/
def fillGo {α : Type} (w : Nat) (positions : List (CellTable α))
    (sel : CellTable α → List α) :
    List Nat → List (List α) → Except String (List (List α))
  | [], arr => .ok arr
  | r :: rs, arr =>
      match pyGet positions r with
      | .error e => .error e
      | .ok tbl =>
          match setCol w arr r (sel tbl) with
          | .error e => .error e
          | .ok arr' => fillGo w positions sel rs arr'

/-- One dense per-rank-per-time array of `load_property`: start from
`np.zeros([len(times), len(ranks)])` and fill column `rank` with the
selected series of `positions[rank]`, for each loaded rank. -/
def fillCols {α : Type} [Zero α] (times : List ℚ)
    (positions : List (CellTable α)) (ranks : List Nat)
    (sel : CellTable α → List α) : Except String (List (List α)) :=
  fillGo ranks.length positions sel ranks (zeros2 α times.length ranks.length)

/-- The inner enumerate loop of the painter, at one grid pixel:
`for indr, rank in enumerate(ranks): if pix == rank: acc = aRow[indr]`.
This is the per-pixel meaning of the masked assignment
`a_field[indt][rankfield[indt] == rank] = a[indt, indr]`; a later matching
rank overwrites an earlier one, and a pixel matching no rank keeps the
accumulated (initially zero) value. -/
def paintGo {α : Type} [Zero α] (aRow : List α) (pix : Int) :
    List Nat → Nat → α → α
  | [], _, acc => acc
  | r :: rs, j, acc =>
      paintGo aRow pix rs (j + 1) (if pix = (r : Int) then aRow.getD j 0 else acc)

/-- The value the painter leaves at a pixel carrying the grid label `pix`,
starting from the `np.zeros` initial value. -/
def paintPix {α : Type} [Zero α] (ranks : List Nat) (aRow : List α)
    (pix : Int) : α :=
  paintGo aRow pix ranks 0 0

/-- `get_field` of `load_files.py`: `a_field = np.zeros(rankfield.shape)`,
then for each timestep index `indt` below `len(times)` and each
`(indr, rank)` in `enumerate(ranks)`, pixels of snapshot `indt` whose rank
label equals `rank` receive `a[indt, indr]`.  Snapshots with index at or
beyond `len(times)` are never visited by the loop and stay zero. -/
def get_field {α : Type} [Zero α] (rankfield : List (List (List Int)))
    (times : List ℚ) (ranks : List Nat) (a : List (List α)) :
    List (List (List α)) :=
  (List.range rankfield.length).map (fun indt =>
    (rankfield.getD indt []).map (fun row => row.map (fun pix =>
      if indt < times.length then paintPix ranks (a.getD indt []) pix
      else 0)))

/-- The 2D shape of a snapshot: the list of its row lengths. -/
def shape2 {α : Type} (g : List (List α)) : List Nat :=
  g.map List.length

/-- `sign(S1) * (arctan(S0 / |S1|) / 2 + π / 4)` — `np.sign`. -/
noncomputable def npSign (x : ℝ) : ℝ :=
  if x < 0 then -1 else if x = 0 then 0 else 1

/-- The nematic-angle formula of the `'nematic angle'` branch:
`np.multiply(np.sign(S1), (np.arctan(S0 / np.abs(S1)) / 2.0 + np.pi / 4.0))`
at one entry. -/
noncomputable def nematicAngle (S0 S1 : ℝ) : ℝ :=
  npSign S1 * (Real.arctan (S0 / |S1|) / 2 + Real.pi / 4)

/-- `np.arctan2 y x` — the four-quadrant arctangent, by the case split of
its mathematical definition (real inputs, so no signed zeros). -/
noncomputable def arctan2 (y x : ℝ) : ℝ :=
  if 0 < x then Real.arctan (y / x)
  else if x < 0 then
    (if 0 ≤ y then Real.arctan (y / x) + Real.pi
     else Real.arctan (y / x) - Real.pi)
  else if 0 < y then Real.pi / 2
  else if y < 0 then -(Real.pi / 2)
  else 0

/-- Elementwise application of a binary scalar function to two 2D arrays,
as numpy broadcasting does for same-shaped operands. -/
def map2D {α : Type} (f : α → α → α) (x y : List (List α)) :
    List (List α) :=
  List.zipWith (fun rx ry => List.zipWith f rx ry) x y

/-- Result of `load_property`: a pair of arrays for the 2D properties, one
array for the angle properties. -/
inductive PropResult where
  | two (p0 p1 : List (List ℝ)) : PropResult
  | one (p : List (List ℝ)) : PropResult

/-- `load_property` of `load_files.py`.  The file I/O (`load_pos`,
`load_rankfield`) is out of scope; its results `positions`, `ranks`,
`times` are parameters.  An unmatched property name falls off the end of
the Python function and returns `None`, modelled as `.ok none`; numpy
indexing faults inside a branch are `.error`.  The source fills the two
arrays of a branch inside one loop over the ranks; this is modelled as two
sequential column fills, which build the same arrays and fail at the same
first out-of-bounds rank. -/
noncomputable def load_property (times : List ℚ)
    (positions : List (CellTable ℝ)) (ranks : List Nat) (prop : String) :
    Except String (Option PropResult) :=
  if prop = "velocity" then
    match fillCols times positions ranks (fun t => t.v0),
          fillCols times positions ranks (fun t => t.v1) with
    | .ok v0, .ok v1 => .ok (some (.two v0 v1))
    | .error e, _ => .error e
    | _, .error e => .error e
  else if prop = "normalised nematic" then
    match fillCols times positions ranks (fun t => t.S0),
          fillCols times positions ranks (fun t => t.S1) with
    | .ok s0, .ok s1 => .ok (some (.two s0 s1))
    | .error e, _ => .error e
    | _, .error e => .error e
  else if prop = "nematic" then
    match fillCols times positions ranks (fun t => t.S0full),
          fillCols times positions ranks (fun t => t.S1full) with
    | .ok s0, .ok s1 => .ok (some (.two s0 s1))
    | .error e, _ => .error e
    | _, .error e => .error e
  else if prop = "velocity angle" then
    match fillCols times positions ranks (fun t => t.v0),
          fillCols times positions ranks (fun t => t.v1) with
    | .ok v0, .ok v1 => .ok (some (.one (map2D arctan2 v1 v0)))
    | .error e, _ => .error e
    | _, .error e => .error e
  else if prop = "nematic angle" then
    match fillCols times positions ranks (fun t => t.S0full),
          fillCols times positions ranks (fun t => t.S1full) with
    | .ok s0, .ok s1 => .ok (some (.one (map2D nematicAngle s0 s1)))
    | .error e, _ => .error e
    | _, .error e => .error e
  else
    .ok none

/-- Result of `load_fields`: two painted field sequences for the 2D
properties, one for the angle properties. -/
inductive FieldsResult where
  | two (f0 f1 : List (List (List ℝ))) : FieldsResult
  | one (f : List (List (List ℝ))) : FieldsResult

/-- The property names `load_fields` treats as two-component. -/
def prop2D : List String := ["velocity", "normalised nematic", "nematic"]

/-- The property names `load_fields` treats as one-component. -/
def prop1D : List String := ["velocity angle", "nematic angle"]

/-- `load_fields` of `load_files.py`: resolve the property then paint each
component with `get_field`; a property name in neither list falls off the
end and returns `None`.  (Unpacking a non-pair from `load_property` would
raise a `TypeError` in Python; that branch is unreachable because the
recognized-name lists agree.) -/
noncomputable def load_fields (rankfield : List (List (List Int)))
    (times : List ℚ) (positions : List (CellTable ℝ)) (ranks : List Nat)
    (prop : String) : Except String (Option FieldsResult) :=
  if prop ∈ prop2D then
    match load_property times positions ranks prop with
    | .ok (some (.two p0 p1)) =>
        .ok (some (.two (get_field rankfield times ranks p0)
                        (get_field rankfield times ranks p1)))
    | .ok _ => .error "TypeError"
    | .error e => .error e
  else if prop ∈ prop1D then
    match load_property times positions ranks prop with
    | .ok (some (.one p)) =>
        .ok (some (.one (get_field rankfield times ranks p)))
    | .ok _ => .error "TypeError"
    | .error e => .error e
  else
    .ok none

/-- Pixel accessors: the value at `(t, y, x)` of a field sequence and of
the rank grid (with a zero default far out of bounds; every use below is
guarded by bounds hypotheses or by the painter's own zero default). -/
def fieldPix {α : Type} [Zero α] (f : List (List (List α))) (t y x : Nat) : α :=
  ((f.getD t []).getD y []).getD x 0

/-- The rank label at `(t, y, x)` of the rank grid. -/
def gridPix (rankfield : List (List (List Int))) (t y x : Nat) : Int :=
  ((rankfield.getD t []).getD y []).getD x 0

/-- The entry of a 2D array at row `t`, column `j`. -/
def arrEntry {α : Type} [Zero α] (arr : List (List α)) (t j : Nat) : α :=
  (arr.getD t []).getD j 0

/-- Well-formedness of a 2D array: `n` rows, each of width `m` — the shape
invariant `np.zeros([n, m])` establishes and column assignment keeps. -/
def WF2 {α : Type} (arr : List (List α)) (n m : Nat) : Prop :=
  arr.length = n ∧ ∀ t, t < n → (arr.getD t []).length = m

/-- Mutation-level model of `get_field` for the frame property: the state
holds the four inputs (`rankfield`, `times`, `ranks`, `a`) and the output
array `a_field` that the loop writes. -/
structure PaintState (α : Type) where
  rankfield : List (List (List Int))
  times : List ℚ
  ranks : List Nat
  a : List (List α)
  a_field : List (List (List α))

/-- The masked broadcast assignment
`a_field[indt][rankfield[indt] == rank] = v` on one snapshot. -/
def maskAssign {α : Type} (snap : List (List Int))
    (field : List (List α)) (r : Nat) (v : α) : List (List α) :=
  List.zipWith (fun irow frow =>
    List.zipWith (fun pix old => if pix = (r : Int) then v else old) irow frow)
    snap field

/-- One iteration of the painter's nested loop at `(indt, indr)`: it reads
the rank grid, the rank list and the scalar array, and writes only the
`indt`-th snapshot of `a_field`. -/
def paintStepS {α : Type} [Zero α] (s : PaintState α) (indt indr : Nat) :
    PaintState α :=
  { s with
    a_field := s.a_field.set indt
      (maskAssign (s.rankfield.getD indt []) (s.a_field.getD indt [])
        (s.ranks.getD indr 0) ((s.a.getD indt []).getD indr 0)) }

/-- The full nested loop of `get_field`:
`for indt, time in enumerate(times): for indr, rank in enumerate(ranks)`. -/
def runPaint {α : Type} [Zero α] (s : PaintState α) : PaintState α :=
  (List.range s.times.length).foldl (fun s1 indt =>
    (List.range s.ranks.length).foldl (fun s2 indr =>
      paintStepS s2 indt indr) s1) s

/-- The input components of a paint state, bundled. -/
def inputsOf {α : Type} (s : PaintState α) :
    List (List (List Int)) × List ℚ × List Nat × List (List α) :=
  (s.rankfield, s.times, s.ranks, s.a)

theorem paintGo_not_mem {α : Type} [Zero α] (aRow : List α) (pix : Int) :
    ∀ (rs : List Nat) (j : Nat) (acc : α),
      (∀ r ∈ rs, (r : Int) ≠ pix) → paintGo aRow pix rs j acc = acc
  | [], _, _, _ => rfl
  | r :: rs, j, acc, h => by
      have hr : (r : Int) ≠ pix := h r (List.mem_cons_self _ _)
      rw [paintGo, if_neg (fun he => hr he.symm)]
      exact paintGo_not_mem aRow pix rs (j + 1) acc
        (fun x hx => h x (List.mem_cons_of_mem _ hx))

theorem paintGo_get {α : Type} [Zero α] (aRow : List α) (pix : Int) :
    ∀ (rs : List Nat), rs.Nodup →
      ∀ (i : Nat) (h : i < rs.length) (j : Nat) (acc : α),
        pix = ((rs.get ⟨i, h⟩ : Nat) : Int) →
        paintGo aRow pix rs j acc = aRow.getD (j + i) 0
  | [], _, i, h, _, _, _ => absurd h (Nat.not_lt_zero i)
  | r :: rs, hnd, i, h, j, acc, hpix => by
      rcases List.nodup_cons.mp hnd with ⟨hr, hnd'⟩
      cases i with
      | zero =>
          simp only [List.get] at hpix
          rw [paintGo, if_pos hpix, Nat.add_zero]
          exact paintGo_not_mem aRow pix rs (j + 1) _
            (fun x hx => fun he => hr (by
              have : x = r := Int.ofNat_inj.mp (he.trans hpix)
              exact this ▸ hx))
      | succ i' =>
          have h' : i' < rs.length := Nat.lt_of_succ_lt_succ h
          have hpix' : pix = ((rs.get ⟨i', h'⟩ : Nat) : Int) := hpix
          have hne : pix ≠ (r : Int) := by
            intro he
            have : (rs.get ⟨i', h'⟩ : Nat) = r := Int.ofNat_inj.mp (hpix'.symm.trans he)
            exact hr (this ▸ List.get_mem rs i' h')
          rw [paintGo, if_neg hne]
          rw [paintGo_get aRow pix rs hnd' i' h' (j + 1) acc hpix']
          congr 1
          omega

theorem paintPix_not_mem {α : Type} [Zero α] (ranks : List Nat)
    (aRow : List α) (pix : Int) (h : ∀ r ∈ ranks, (r : Int) ≠ pix) :
    paintPix ranks aRow pix = 0 :=
  paintGo_not_mem aRow pix ranks 0 0 h

theorem paintPix_get {α : Type} [Zero α] (ranks : List Nat) (aRow : List α)
    (pix : Int) (hnd : ranks.Nodup) (i : Nat) (h : i < ranks.length)
    (hpix : pix = ((ranks.get ⟨i, h⟩ : Nat) : Int)) :
    paintPix ranks aRow pix = aRow.getD i 0 := by
  rw [paintPix, paintGo_get aRow pix ranks hnd i h 0 0 hpix, Nat.zero_add]

theorem getD_map_of_lt {α β : Type} (f : α → β) (l : List α) (x : Nat)
    (hx : x < l.length) (d : β) (d' : α) :
    (l.map f).getD x d = f (l.getD x d') := by
  rw [List.getD_eq_getElem?_getD, List.getElem?_map,
      List.getD_eq_getElem?_getD, List.getElem?_eq_getElem hx]
  rfl

theorem getD_of_le {α : Type} (l : List α) (x : Nat) (hx : l.length ≤ x)
    (d : α) : l.getD x d = d := by
  rw [List.getD_eq_getElem?_getD, List.getElem?_eq_none hx]
  rfl

theorem get_field_length {α : Type} [Zero α]
    (rankfield : List (List (List Int))) (times : List ℚ)
    (ranks : List Nat) (a : List (List α)) :
    (get_field rankfield times ranks a).length = rankfield.length := by
  simp [get_field]

theorem get_field_getD {α : Type} [Zero α]
    (rankfield : List (List (List Int))) (times : List ℚ)
    (ranks : List Nat) (a : List (List α)) (t : Nat)
    (ht : t < rankfield.length) :
    (get_field rankfield times ranks a).getD t [] =
      (rankfield.getD t []).map (fun row => row.map (fun pix =>
        if t < times.length then paintPix ranks (a.getD t []) pix
        else 0)) := by
  rw [get_field, List.getD_eq_getElem?_getD, List.getElem?_map,
      List.getElem?_range ht]
  rfl

theorem fieldPix_get_field {α : Type} [Zero α]
    (rankfield : List (List (List Int))) (times : List ℚ)
    (ranks : List Nat) (a : List (List α)) (t y x : Nat)
    (ht : t < rankfield.length) (ht' : t < times.length)
    (hy : y < (rankfield.getD t []).length)
    (hx : x < ((rankfield.getD t []).getD y []).length) :
    fieldPix (get_field rankfield times ranks a) t y x =
      paintPix ranks (a.getD t []) (gridPix rankfield t y x) := by
  rw [fieldPix, get_field_getD rankfield times ranks a t ht,
      getD_map_of_lt _ _ y hy [] [],
      getD_map_of_lt _ _ x hx 0 0, if_pos ht', gridPix]

theorem zeros2_WF (α : Type) [Zero α] (n m : Nat) : WF2 (zeros2 α n m) n m := by
  refine ⟨by simp [zeros2], fun t ht => ?_⟩
  rw [zeros2, List.getD_eq_getElem?_getD, List.getElem?_replicate]
  simp [ht]

theorem setCol_ok_iff {α : Type} {w : Nat} {arr : List (List α)} {j : Nat}
    {col : List α} {out : List (List α)} :
    setCol w arr j col = .ok out ↔
      j < w ∧ col.length = arr.length ∧
      out = List.zipWith (fun row v => row.set j v) arr col := by
  rw [setCol]
  by_cases h : j < w ∧ col.length = arr.length
  · rw [if_pos h]
    constructor
    · intro he
      injection he with h'
      exact ⟨h.1, h.2, h'.symm⟩
    · rintro ⟨-, -, rfl⟩
      rfl
  · rw [if_neg h]
    constructor
    · intro he
      exact absurd he (by simp)
    · rintro ⟨h1, h2, -⟩
      exact absurd ⟨h1, h2⟩ h

theorem set_getD_self {α : Type} (row : List α) (j : Nat) (v : α) (d : α)
    (hj : j < row.length) : (row.set j v).getD j d = v := by
  rw [List.getD_eq_getElem?_getD, List.getElem?_set_eq_of_lt v hj]
  rfl

theorem set_getD_ne {α : Type} (row : List α) (j j' : Nat) (v : α) (d : α)
    (hne : j ≠ j') : (row.set j v).getD j' d = row.getD j' d := by
  rw [List.getD_eq_getElem?_getD, List.getElem?_set_ne hne,
      ← List.getD_eq_getElem?_getD]

theorem zipSet_getD {α : Type} [Zero α] (arr : List (List α)) (col : List α)
    (j t : Nat) (hlen : col.length = arr.length) (ht : t < arr.length) :
    (List.zipWith (fun row v => row.set j v) arr col).getD t [] =
      (arr.getD t []).set j (col.getD t 0) := by
  have ht2 : t < col.length := by omega
  rw [List.getD_eq_getElem?_getD, List.getElem?_zipWith',
      List.getElem?_eq_getElem ht, List.getElem?_eq_getElem ht2,
      List.getD_eq_getElem?_getD, List.getElem?_eq_getElem ht,
      List.getD_eq_getElem?_getD, List.getElem?_eq_getElem ht2]
  rfl

theorem setCol_WF {α : Type} [Zero α] {w n : Nat} {arr : List (List α)}
    {j : Nat} {col : List α} {out : List (List α)} (hWF : WF2 arr n w)
    (h : setCol w arr j col = .ok out) : WF2 out n w := by
  obtain ⟨hj, hlen, rfl⟩ := setCol_ok_iff.mp h
  refine ⟨by rw [List.length_zipWith, hlen, hWF.1, Nat.min_self], fun t ht => ?_⟩
  rw [zipSet_getD arr col j t hlen (by rw [hWF.1]; exact ht), List.length_set]
  exact hWF.2 t ht

theorem setCol_entry_self {α : Type} [Zero α] {w n : Nat}
    {arr : List (List α)} {j : Nat} {col : List α} {out : List (List α)}
    (hWF : WF2 arr n w) (h : setCol w arr j col = .ok out) (t : Nat)
    (ht : t < n) : arrEntry out t j = col.getD t 0 := by
  obtain ⟨hj, hlen, rfl⟩ := setCol_ok_iff.mp h
  rw [arrEntry, zipSet_getD arr col j t hlen (by rw [hWF.1]; exact ht)]
  exact set_getD_self _ _ _ _ (by rw [hWF.2 t ht]; exact hj)

theorem setCol_entry_ne {α : Type} [Zero α] {w : Nat} {arr : List (List α)}
    {j : Nat} {col : List α} {out : List (List α)}
    (h : setCol w arr j col = .ok out) (t j' : Nat) (hne : j ≠ j') :
    arrEntry out t j' = arrEntry arr t j' := by
  obtain ⟨hj, hlen, rfl⟩ := setCol_ok_iff.mp h
  by_cases ht : t < arr.length
  · rw [arrEntry, arrEntry, zipSet_getD arr col j t hlen ht,
        set_getD_ne _ _ _ _ _ hne]
  · rw [arrEntry, arrEntry,
        getD_of_le _ t (by rw [List.length_zipWith, hlen, Nat.min_self]; omega) [],
        getD_of_le _ t (by omega) []]

theorem pyGet_ok_lt {β : Type} {l : List β} {i : Nat} {b : β}
    (h : pyGet l i = .ok b) : i < l.length := by
  rw [pyGet] at h
  by_cases hi : i < l.length
  · exact hi
  · rw [dif_neg hi] at h
    exact absurd h (by simp)

theorem pyGet_ok_val {β : Type} (l : List β) (i : Nat) (hi : i < l.length) :
    pyGet l i = .ok (l.get ⟨i, hi⟩) := by
  rw [pyGet, dif_pos hi]

theorem fillGo_ok_WF {α : Type} [Zero α] {w n : Nat}
    {positions : List (CellTable α)} {sel : CellTable α → List α} :
    ∀ (rs : List Nat) (arr out : List (List α)), WF2 arr n w →
      fillGo w positions sel rs arr = .ok out → WF2 out n w := by
  intro rs
  induction rs with
  | nil =>
      intro arr out hWF h
      rw [fillGo] at h
      injection h with h'
      exact h' ▸ hWF
  | cons r rs ih =>
      intro arr out hWF h
      cases hp : pyGet positions r with
      | error e =>
          simp only [fillGo, hp] at h
          exact Except.noConfusion h
      | ok tbl =>
          cases hsc : setCol w arr r (sel tbl) with
          | error e =>
              simp only [fillGo, hp, hsc] at h
              exact Except.noConfusion h
          | ok arr' =>
              simp only [fillGo, hp, hsc] at h
              exact ih _ _ (setCol_WF hWF hsc) h

theorem fillGo_ok_bounds {α : Type} {w : Nat}
    {positions : List (CellTable α)} {sel : CellTable α → List α} :
    ∀ (rs : List Nat) (arr out : List (List α)),
      fillGo w positions sel rs arr = .ok out →
      ∀ r ∈ rs, r < w ∧ r < positions.length := by
  intro rs
  induction rs with
  | nil => intro arr out _ r hr; exact absurd hr (List.not_mem_nil r)
  | cons r0 rs ih =>
      intro arr out h r hr
      cases hp : pyGet positions r0 with
      | error e =>
          simp only [fillGo, hp] at h
          exact Except.noConfusion h
      | ok tbl =>
          cases hsc : setCol w arr r0 (sel tbl) with
          | error e =>
              simp only [fillGo, hp, hsc] at h
              exact Except.noConfusion h
          | ok arr' =>
              simp only [fillGo, hp, hsc] at h
              rcases List.mem_cons.mp hr with rfl | hr'
              · exact ⟨(setCol_ok_iff.mp hsc).1, pyGet_ok_lt hp⟩
              · exact ih _ _ h r hr'

theorem fillGo_ok_of_bounds {α : Type} [Zero α] {w n : Nat}
    {positions : List (CellTable α)} {sel : CellTable α → List α}
    (hsel : ∀ tbl ∈ positions, (sel tbl).length = n) :
    ∀ (rs : List Nat) (arr : List (List α)), WF2 arr n w →
      (∀ r ∈ rs, r < w ∧ r < positions.length) →
      ∃ out, fillGo w positions sel rs arr = .ok out := by
  intro rs
  induction rs with
  | nil => intro arr _ _; exact ⟨arr, rfl⟩
  | cons r0 rs ih =>
      intro arr hWF hb
      have hr0 := hb r0 (List.mem_cons_self r0 rs)
      have hpy := pyGet_ok_val positions r0 hr0.2
      have hcol : (sel (positions.get ⟨r0, hr0.2⟩)).length = arr.length := by
        rw [hWF.1]
        exact hsel _ (List.get_mem positions r0 hr0.2)
      have hset : setCol w arr r0 (sel (positions.get ⟨r0, hr0.2⟩)) =
          .ok (List.zipWith (fun row v => row.set r0 v) arr
            (sel (positions.get ⟨r0, hr0.2⟩))) :=
        setCol_ok_iff.mpr ⟨hr0.1, hcol, rfl⟩
      obtain ⟨out, hout⟩ := ih _
        (setCol_WF hWF hset)
        (fun r hr => hb r (List.mem_cons_of_mem r0 hr))
      refine ⟨out, ?_⟩
      simp only [fillGo, hpy, hset]
      exact hout

theorem fillGo_entry_not_mem {α : Type} [Zero α] {w : Nat}
    {positions : List (CellTable α)} {sel : CellTable α → List α} :
    ∀ (rs : List Nat) (arr out : List (List α)),
      fillGo w positions sel rs arr = .ok out →
      ∀ j, j ∉ rs → ∀ t, arrEntry out t j = arrEntry arr t j := by
  intro rs
  induction rs with
  | nil =>
      intro arr out h j _ t
      rw [fillGo] at h
      injection h with h'
      rw [h']
  | cons r0 rs ih =>
      intro arr out h j hj t
      cases hp : pyGet positions r0 with
      | error e =>
          simp only [fillGo, hp] at h
          exact Except.noConfusion h
      | ok tbl =>
          cases hsc : setCol w arr r0 (sel tbl) with
          | error e =>
              simp only [fillGo, hp, hsc] at h
              exact Except.noConfusion h
          | ok arr' =>
              simp only [fillGo, hp, hsc] at h
              rw [ih _ _ h j (fun hm => hj (List.mem_cons_of_mem r0 hm)) t]
              exact setCol_entry_ne hsc t j
                (fun he => hj (he ▸ List.mem_cons_self r0 rs))

theorem fillGo_entry_mem {α : Type} [Zero α] {w n : Nat}
    {positions : List (CellTable α)} {sel : CellTable α → List α} :
    ∀ (rs : List Nat), rs.Nodup → ∀ (arr out : List (List α)),
      WF2 arr n w → fillGo w positions sel rs arr = .ok out →
      ∀ r ∈ rs, ∀ (hr : r < positions.length) (t : Nat), t < n →
        arrEntry out t r = (sel (positions.get ⟨r, hr⟩)).getD t 0 := by
  intro rs
  induction rs with
  | nil => intro _ arr out _ _ r hr; exact absurd hr (List.not_mem_nil r)
  | cons r0 rs ih =>
      intro hnd arr out hWF h r hr hrp t ht
      rcases List.nodup_cons.mp hnd with ⟨hr0, hnd'⟩
      cases hp : pyGet positions r0 with
      | error e =>
          simp only [fillGo, hp] at h
          exact Except.noConfusion h
      | ok tbl =>
          cases hsc : setCol w arr r0 (sel tbl) with
          | error e =>
              simp only [fillGo, hp, hsc] at h
              exact Except.noConfusion h
          | ok arr' =>
              simp only [fillGo, hp, hsc] at h
              rcases List.mem_cons.mp hr with rfl | hr'
              · have htbl : tbl = positions.get ⟨r, hrp⟩ := by
                  rw [pyGet_ok_val positions r hrp] at hp
                  injection hp with h'
                  exact h'.symm
                rw [fillGo_entry_not_mem rs arr' out h r hr0 t,
                    setCol_entry_self hWF hsc t ht, htbl]
              · exact ih hnd' _ _ (setCol_WF hWF hsc) h r hr' hrp t ht

theorem sorted_bounded_eq_range (l : List Nat)
    (hs : List.Sorted (· < ·) l) (hb : ∀ r ∈ l, r < l.length) :
    l = List.range l.length := by
  have hnd : l.Nodup := hs.nodup
  have hsub : l ⊆ List.range l.length :=
    fun x hx => List.mem_range.mpr (hb x hx)
  have hperm : List.Perm l (List.range l.length) :=
    (hnd.subperm hsub).perm_of_length_le (by rw [List.length_range])
  letI : IsAntisymm ℕ (· < ·) :=
    ⟨fun a b h1 h2 => absurd h2 (Nat.lt_asymm h1)⟩
  exact List.eq_of_perm_of_sorted hperm hs (List.sorted_lt_range _)

theorem fillCols_ok_WF {α : Type} [Zero α] {times : List ℚ}
    {positions : List (CellTable α)} {ranks : List Nat}
    {sel : CellTable α → List α} {out : List (List α)}
    (h : fillCols times positions ranks sel = .ok out) :
    WF2 out times.length ranks.length :=
  fillGo_ok_WF ranks _ out (zeros2_WF α times.length ranks.length) h

theorem fillCols_ok_bounds {α : Type} [Zero α] {times : List ℚ}
    {positions : List (CellTable α)} {ranks : List Nat}
    {sel : CellTable α → List α} {out : List (List α)}
    (h : fillCols times positions ranks sel = .ok out) :
    ∀ r ∈ ranks, r < ranks.length ∧ r < positions.length :=
  fillGo_ok_bounds ranks _ out h

theorem fillCols_ok_of_bounds {α : Type} [Zero α] {times : List ℚ}
    {positions : List (CellTable α)} {ranks : List Nat}
    {sel : CellTable α → List α}
    (hsel : ∀ tbl ∈ positions, (sel tbl).length = times.length)
    (hb : ∀ r ∈ ranks, r < ranks.length ∧ r < positions.length) :
    ∃ out, fillCols times positions ranks sel = .ok out :=
  fillGo_ok_of_bounds hsel ranks _ (zeros2_WF α times.length ranks.length) hb

theorem fillCols_entry {α : Type} [Zero α] {times : List ℚ}
    {positions : List (CellTable α)} {ranks : List Nat}
    {sel : CellTable α → List α} {out : List (List α)}
    (hnd : ranks.Nodup) (h : fillCols times positions ranks sel = .ok out)
    {r : Nat} (hrm : r ∈ ranks) (hr : r < positions.length) {t : Nat}
    (ht : t < times.length) :
    arrEntry out t r = (sel (positions.get ⟨r, hr⟩)).getD t 0 :=
  fillGo_entry_mem ranks hnd _ out
    (zeros2_WF α times.length ranks.length) h r hrm hr t ht

theorem load_property_velocity_eq (times : List ℚ)
    (positions : List (CellTable ℝ)) (ranks : List Nat) :
    load_property times positions ranks "velocity" =
      match fillCols times positions ranks (fun t => t.v0),
            fillCols times positions ranks (fun t => t.v1) with
      | .ok v0, .ok v1 => .ok (some (.two v0 v1))
      | .error e, _ => .error e
      | _, .error e => .error e := by
  rw [load_property, if_pos rfl]

/-- C1 counterexample: the claim "the painted pixel holds exactly
`per_rank_scalar[t][r]`, the scalar of the owning rank" fails as stated.
With loaded ranks `[1]`, grid `[[[1]]]` and scalars `a = [[5, 7]]`, the
single pixel is owned by rank `1`, yet `get_field` paints `a[0][0] = 5`
(the scalar at the rank's *position* in the rank list), not
`a[0][1] = 7`. -/
theorem get_field_paints_by_position_cex :
    fieldPix (get_field [[[(1 : Int)]]] [(0 : ℚ)] [1] [[(5 : ℚ), 7]]) 0 0 0 = 5 ∧
    (([[(5 : ℚ), 7]] : List (List ℚ)).getD 0 []).getD 1 0 = 7 ∧
    (5 : ℚ) ≠ 7 := by
  decide

/-- C1 (amended): for distinct loaded ranks, a pixel owned by the rank at
position `i` of the rank list is painted `per_rank_scalar[t][i]` — the
scalar at the rank's position, which coincides with indexing by the rank
value exactly when the loaded ranks are `0, 1, …, R-1`. -/
theorem get_field_paints_by_rank_position {α : Type} [Zero α]
    (rankfield : List (List (List Int))) (times : List ℚ)
    (ranks : List Nat) (a : List (List α)) (t y x i : Nat)
    (hnd : ranks.Nodup) (hi : i < ranks.length)
    (ht : t < rankfield.length) (ht' : t < times.length)
    (hy : y < (rankfield.getD t []).length)
    (hx : x < ((rankfield.getD t []).getD y []).length)
    (hpix : gridPix rankfield t y x = ((ranks.get ⟨i, hi⟩ : Nat) : Int)) :
    fieldPix (get_field rankfield times ranks a) t y x =
      (a.getD t []).getD i 0 := by
  rw [fieldPix_get_field rankfield times ranks a t y x ht ht' hy hx]
  exact paintPix_get ranks (a.getD t []) (gridPix rankfield t y x) hnd i hi hpix

/-- Witness for the amended C1 at a concrete input. -/
theorem get_field_paints_by_rank_position_witness :
    fieldPix (get_field [[[(1 : Int)]]] [(0 : ℚ)] [1] [[(9 : ℚ), 4]]) 0 0 0 =
      (([[(9 : ℚ), 4]] : List (List ℚ)).getD 0 []).getD 0 0 :=
  get_field_paints_by_rank_position [[[(1 : Int)]]] [(0 : ℚ)] [1]
    [[(9 : ℚ), 4]] 0 0 0 0 (by decide) (by decide) (by decide) (by decide)
    (by decide) (by decide) (by decide)

/-- C2: a pixel whose grid label is the unoccupied sentinel or any value
outside the loaded rank set is left at the default zero in the painted
field, at every timestep, and the painter is total (no error) on such
pixels. -/
theorem get_field_unknown_rank_zero {α : Type} [Zero α]
    (rankfield : List (List (List Int))) (times : List ℚ)
    (ranks : List Nat) (a : List (List α)) (t y x : Nat)
    (hpix : ∀ r ∈ ranks, (r : Int) ≠ gridPix rankfield t y x) :
    fieldPix (get_field rankfield times ranks a) t y x = 0 := by
  by_cases ht : t < rankfield.length
  · rw [fieldPix, get_field_getD rankfield times ranks a t ht]
    by_cases hy : y < (rankfield.getD t []).length
    · rw [getD_map_of_lt _ _ y hy [] []]
      by_cases hx : x < ((rankfield.getD t []).getD y []).length
      · rw [getD_map_of_lt _ _ x hx 0 0]
        by_cases ht' : t < times.length
        · rw [if_pos ht']
          exact paintPix_not_mem ranks (a.getD t []) (gridPix rankfield t y x) hpix
        · rw [if_neg ht']
      · rw [getD_of_le _ x (by simpa using Nat.le_of_not_lt hx) 0]
    · rw [getD_of_le _ y (by simpa using Nat.le_of_not_lt hy) []]
      rfl
  · rw [fieldPix, getD_of_le _ t (by rw [get_field_length]; omega) []]
    rfl

/-- Witness for C2: a sentinel `-1` pixel comes out zero. -/
theorem get_field_unknown_rank_zero_witness :
    fieldPix (get_field [[[(-1 : Int)]]] [(0 : ℚ)] [0] [[(3 : ℚ)]]) 0 0 0 = 0 :=
  get_field_unknown_rank_zero [[[(-1 : Int)]]] [(0 : ℚ)] [0] [[(3 : ℚ)]]
    0 0 0 (by decide)

/-- C8: for valid input (timestep axis aligned with the grid snapshots),
the painted sequence has one field per timestep and each field has the 2D
shape of the corresponding grid snapshot. -/
theorem get_field_shape_contract {α : Type} [Zero α]
    (rankfield : List (List (List Int))) (times : List ℚ)
    (ranks : List Nat) (a : List (List α))
    (hlen : times.length = rankfield.length) :
    (get_field rankfield times ranks a).length = times.length ∧
    ∀ t : Nat, shape2 ((get_field rankfield times ranks a).getD t []) =
      shape2 (rankfield.getD t []) := by
  refine ⟨by rw [get_field_length, hlen], fun t => ?_⟩
  by_cases ht : t < rankfield.length
  · rw [get_field_getD rankfield times ranks a t ht]
    simp [shape2, List.map_map, Function.comp]
  · rw [getD_of_le _ t (by rw [get_field_length]; omega) [],
        getD_of_le _ t (Nat.le_of_not_lt ht) []]
    rfl

/-- Witness for C8 at a concrete input. -/
theorem get_field_shape_contract_witness :
    (get_field [[[(0 : Int), 1], [2, 3]]] [(0 : ℚ)] [0] [[(5 : ℚ)]]).length =
      ([(0 : ℚ)] : List ℚ).length ∧
    ∀ t : Nat,
      shape2 ((get_field [[[(0 : Int), 1], [2, 3]]] [(0 : ℚ)] [0]
        [[(5 : ℚ)]]).getD t []) =
      shape2 (([[[(0 : Int), 1], [2, 3]]] : List (List (List Int))).getD t []) :=
  get_field_shape_contract [[[(0 : Int), 1], [2, 3]]] [(0 : ℚ)] [0]
    [[(5 : ℚ)]] (by decide)

/-- C9: the painter is deterministic and free of hidden state — two calls
on identical rank grids, timestep axes, rank lists and scalar arrays give
identical field sequences. -/
theorem get_field_deterministic {α : Type} [Zero α]
    (rankfield rankfield' : List (List (List Int)))
    (times times' : List ℚ) (ranks ranks' : List Nat)
    (a a' : List (List α)) (h1 : rankfield = rankfield')
    (h2 : times = times') (h3 : ranks = ranks') (h4 : a = a') :
    get_field rankfield times ranks a =
      get_field rankfield' times' ranks' a' := by
  subst h1 h2 h3 h4
  rfl

/-- Witness for C9 at a concrete input. -/
theorem get_field_deterministic_witness :
    get_field [[[(1 : Int)]]] [(0 : ℚ)] [1] [[(5 : ℚ), 6]] =
      get_field [[[(1 : Int)]]] [(0 : ℚ)] [1] [[(5 : ℚ), 6]] :=
  get_field_deterministic [[[(1 : Int)]]] [[[(1 : Int)]]] [(0 : ℚ)]
    [(0 : ℚ)] [1] [1] [[(5 : ℚ), 6]] [[(5 : ℚ), 6]] rfl rfl rfl rfl

theorem foldl_inputs {α : Type} (f : PaintState α → Nat → PaintState α)
    (hf : ∀ s x, inputsOf (f s x) = inputsOf s) :
    ∀ (l : List Nat) (s : PaintState α), inputsOf (l.foldl f s) = inputsOf s
  | [], _ => rfl
  | x :: l, s => by rw [List.foldl_cons, foldl_inputs f hf l (f s x), hf]

/-- C10: the painter's loop writes only the freshly allocated output
array — after running the whole nested loop, the rank grid, the timestep
axis, the rank list and the per-rank scalar array are unchanged. -/
theorem runPaint_frame {α : Type} [Zero α] (s : PaintState α) :
    (runPaint s).rankfield = s.rankfield ∧ (runPaint s).times = s.times ∧
    (runPaint s).ranks = s.ranks ∧ (runPaint s).a = s.a := by
  have h : inputsOf (runPaint s) = inputsOf s := by
    rw [runPaint]
    exact foldl_inputs
      (fun s1 indt => (List.range s.ranks.length).foldl
        (fun s2 indr => paintStepS s2 indt indr) s1)
      (fun s1 indt => foldl_inputs
        (fun s2 indr => paintStepS s2 indt indr)
        (fun _ _ => rfl) (List.range s.ranks.length) s1)
      (List.range s.times.length) s
  exact ⟨congrArg (fun p => p.1) h, congrArg (fun p => p.2.1) h,
    congrArg (fun p => p.2.2.1) h, congrArg (fun p => p.2.2.2) h⟩

theorem get_of_eq_range {l : List Nat} (hrange : l = List.range l.length)
    (i : Nat) (hi : i < l.length) : l.get ⟨i, hi⟩ = i := by
  have h1 := List.get_of_eq hrange ⟨i, hi⟩
  rw [h1, List.get_eq_getElem]
  simp [List.getElem_range]

/-- C4: each array returned by the `'velocity'` branch of `load_property`
has shape `[num_timesteps, num_ranks]`; whenever the build succeeds on a
sorted rank set the loaded ranks are exactly `0 … R-1`, column `r` holds
the series of the table at position `r` (rank `r`'s table, by the sorted
provider alignment), and the painter consumes such arrays under the same
indexing: a pixel owned by rank `r` at timestep `t` receives entry
`[t][r]` of the array being painted. -/
theorem load_property_shape_and_indexing
    (rankfield : List (List (List Int))) (times : List ℚ)
    (positions : List (CellTable ℝ)) (ranks : List Nat)
    (v0 v1 : List (List ℝ)) (hsort : List.Sorted (· < ·) ranks)
    (h : load_property times positions ranks "velocity" =
      .ok (some (.two v0 v1))) :
    (v0.length = times.length ∧ v1.length = times.length ∧
      ∀ t, t < times.length →
        (v0.getD t []).length = ranks.length ∧
        (v1.getD t []).length = ranks.length) ∧
    ranks = List.range ranks.length ∧
    (∀ r, r ∈ ranks → ∀ (hr : r < positions.length) (t : Nat),
      t < times.length →
      arrEntry v0 t r = (positions.get ⟨r, hr⟩).v0.getD t 0 ∧
      arrEntry v1 t r = (positions.get ⟨r, hr⟩).v1.getD t 0) ∧
    (∀ (a : List (List ℝ)) (t y x r : Nat), t < rankfield.length →
      t < times.length → y < (rankfield.getD t []).length →
      x < ((rankfield.getD t []).getD y []).length → r ∈ ranks →
      gridPix rankfield t y x = (r : Int) →
      fieldPix (get_field rankfield times ranks a) t y x = arrEntry a t r) := by
  rw [load_property_velocity_eq] at h
  cases h0 : fillCols times positions ranks (fun t => t.v0) with
  | error e =>
      rw [h0] at h
      cases h1 : fillCols times positions ranks (fun t => t.v1) with
      | error e' =>
          simp only [h1] at h
          exact Except.noConfusion h
      | ok w1 =>
          simp only [h1] at h
          exact Except.noConfusion h
  | ok w0 =>
      rw [h0] at h
      cases h1 : fillCols times positions ranks (fun t => t.v1) with
      | error e' =>
          simp only [h1] at h
          exact Except.noConfusion h
      | ok w1 =>
          simp only [h1, Except.ok.injEq, Option.some.injEq,
            PropResult.two.injEq] at h
          obtain ⟨rfl, rfl⟩ := h
          have hnd : ranks.Nodup := hsort.nodup
          have hb := fillCols_ok_bounds h0
          have hrange : ranks = List.range ranks.length :=
            sorted_bounded_eq_range ranks hsort (fun r hr => (hb r hr).1)
          obtain ⟨hl0, hw0⟩ := fillCols_ok_WF h0
          obtain ⟨hl1, hw1⟩ := fillCols_ok_WF h1
          refine ⟨⟨hl0, hl1, fun t ht => ⟨hw0 t ht, hw1 t ht⟩⟩, hrange,
            fun r hrm hr t ht =>
              ⟨fillCols_entry hnd h0 hrm hr ht,
               fillCols_entry hnd h1 hrm hr ht⟩,
            fun a t y x r ht ht' hy hx hrm hpix => ?_⟩
          obtain ⟨⟨i, hi⟩, hgi⟩ := List.mem_iff_get.mp hrm
          have hir : i = r := by rw [← hgi, get_of_eq_range hrange i hi]
          subst hir
          rw [fieldPix_get_field rankfield times ranks a t y x ht ht' hy hx,
              paintPix_get ranks (a.getD t []) (gridPix rankfield t y x)
                hnd i hi (by rw [hpix, hgi])]
          rfl

/-- Witness for C4 at a concrete input on which `load_property` succeeds. -/
theorem load_property_shape_and_indexing_witness :
    (([[(2 : ℝ), 3]] : List (List ℝ)).length = ([(0 : ℚ)] : List ℚ).length ∧
      ([[(4 : ℝ), 5]] : List (List ℝ)).length = ([(0 : ℚ)] : List ℚ).length ∧
      ∀ t, t < ([(0 : ℚ)] : List ℚ).length →
        (([[(2 : ℝ), 3]] : List (List ℝ)).getD t []).length =
          ([0, 1] : List Nat).length ∧
        (([[(4 : ℝ), 5]] : List (List ℝ)).getD t []).length =
          ([0, 1] : List Nat).length) ∧
    ([0, 1] : List Nat) = List.range ([0, 1] : List Nat).length ∧
    (∀ r, r ∈ ([0, 1] : List Nat) →
      ∀ (hr : r < ([⟨[2], [4], [0], [0], [0], [0]⟩,
          ⟨[3], [5], [0], [0], [0], [0]⟩] : List (CellTable ℝ)).length)
        (t : Nat), t < ([(0 : ℚ)] : List ℚ).length →
      arrEntry [[(2 : ℝ), 3]] t r =
        (([⟨[2], [4], [0], [0], [0], [0]⟩,
          ⟨[3], [5], [0], [0], [0], [0]⟩] : List (CellTable ℝ)).get
            ⟨r, hr⟩).v0.getD t 0 ∧
      arrEntry [[(4 : ℝ), 5]] t r =
        (([⟨[2], [4], [0], [0], [0], [0]⟩,
          ⟨[3], [5], [0], [0], [0], [0]⟩] : List (CellTable ℝ)).get
            ⟨r, hr⟩).v1.getD t 0) ∧
    (∀ (a : List (List ℝ)) (t y x r : Nat),
      t < ([[[(0 : Int), 1]]] : List (List (List Int))).length →
      t < ([(0 : ℚ)] : List ℚ).length →
      y < (([[[(0 : Int), 1]]] : List (List (List Int))).getD t []).length →
      x < ((([[[(0 : Int), 1]]] : List (List (List Int))).getD t []).getD
        y []).length →
      r ∈ ([0, 1] : List Nat) →
      gridPix [[[(0 : Int), 1]]] t y x = (r : Int) →
      fieldPix (get_field [[[(0 : Int), 1]]] [(0 : ℚ)] [0, 1] a) t y x =
        arrEntry a t r) :=
  load_property_shape_and_indexing [[[(0 : Int), 1]]] [(0 : ℚ)]
    [⟨[2], [4], [0], [0], [0], [0]⟩, ⟨[3], [5], [0], [0], [0], [0]⟩]
    [0, 1] [[(2 : ℝ), 3]] [[(4 : ℝ), 5]] (by decide) (by rfl)

/-- C3 counterexample: the per-rank arrays are sized by the COUNT of
ranks, not by the maximum rank value + 1, and indexing by a rank value can
fault.  With the sorted rank set `[0, 2]` (count 2, max + 1 = 3) and
tables available for every rank, `load_property` raises `IndexError` when
it writes column `2` of a 2-column array — refuting "indexing these
arrays by a rank value never faults out of bounds". -/
theorem load_property_rank_oob_cex :
    load_property [(0 : ℚ)]
      [⟨[0], [0], [0], [0], [0], [0]⟩, ⟨[0], [0], [0], [0], [0], [0]⟩,
       ⟨[0], [0], [0], [0], [0], [0]⟩]
      [0, 2] "velocity" = .error "IndexError" := by
  rfl

/-- C3 (amended): the arrays built by `load_property` have their rank
dimension sized by the count of loaded ranks (`len(ranks)`), not by the
maximum rank value + 1; with the per-cell tables available and aligned,
the build succeeds — i.e. every rank value used as a column index is in
bounds — exactly when every loaded rank is below the rank count. -/
theorem load_property_sized_by_count (times : List ℚ)
    (positions : List (CellTable ℝ)) (ranks : List Nat)
    (hpos : ∀ r ∈ ranks, r < positions.length)
    (hcols : ∀ tbl ∈ positions,
      tbl.v0.length = times.length ∧ tbl.v1.length = times.length) :
    ((∃ res, load_property times positions ranks "velocity" = .ok res) ↔
      ∀ r ∈ ranks, r < ranks.length) ∧
    ∀ v0 v1,
      load_property times positions ranks "velocity" = .ok (some (.two v0 v1)) →
      v0.length = times.length ∧ v1.length = times.length ∧
      ∀ t, t < times.length →
        (v0.getD t []).length = ranks.length ∧
        (v1.getD t []).length = ranks.length := by
  constructor
  · constructor
    · rintro ⟨res, hres⟩
      rw [load_property_velocity_eq] at hres
      cases h0 : fillCols times positions ranks (fun t => t.v0) with
      | error e =>
          rw [h0] at hres
          cases h1 : fillCols times positions ranks (fun t => t.v1) with
          | error e' =>
              simp only [h1] at hres
              exact Except.noConfusion hres
          | ok v1 =>
              simp only [h1] at hres
              exact Except.noConfusion hres
      | ok v0 => exact fun r hr => (fillCols_ok_bounds h0 r hr).1
    · intro hb
      obtain ⟨v0, h0⟩ := fillCols_ok_of_bounds
        (fun tbl ht => (hcols tbl ht).1) (fun r hr => ⟨hb r hr, hpos r hr⟩)
      obtain ⟨v1, h1⟩ := fillCols_ok_of_bounds
        (fun tbl ht => (hcols tbl ht).2) (fun r hr => ⟨hb r hr, hpos r hr⟩)
      refine ⟨some (.two v0 v1), ?_⟩
      rw [load_property_velocity_eq]
      simp only [h0, h1]
  · intro v0 v1 hres
    rw [load_property_velocity_eq] at hres
    cases h0 : fillCols times positions ranks (fun t => t.v0) with
    | error e =>
        rw [h0] at hres
        cases h1 : fillCols times positions ranks (fun t => t.v1) with
        | error e' =>
            simp only [h1] at hres
            exact Except.noConfusion hres
        | ok w1 =>
            simp only [h1] at hres
            exact Except.noConfusion hres
    | ok w0 =>
        rw [h0] at hres
        cases h1 : fillCols times positions ranks (fun t => t.v1) with
        | error e' =>
            simp only [h1] at hres
            exact Except.noConfusion hres
        | ok w1 =>
            simp only [h1, Except.ok.injEq, Option.some.injEq,
              PropResult.two.injEq] at hres
            obtain ⟨rfl, rfl⟩ := hres
            obtain ⟨hl0, hw0⟩ := fillCols_ok_WF h0
            obtain ⟨hl1, hw1⟩ := fillCols_ok_WF h1
            exact ⟨hl0, hl1, fun t ht => ⟨hw0 t ht, hw1 t ht⟩⟩

/-- Witness for the amended C3 at a concrete input. -/
theorem load_property_sized_by_count_witness :
    ((∃ res, load_property [(0 : ℚ)] [⟨[2], [3], [0], [0], [0], [0]⟩] [0]
        "velocity" = .ok res) ↔ ∀ r ∈ [0], r < ([0] : List Nat).length) ∧
    ∀ v0 v1,
      load_property [(0 : ℚ)] [⟨[2], [3], [0], [0], [0], [0]⟩] [0]
        "velocity" = .ok (some (.two v0 v1)) →
      v0.length = ([(0 : ℚ)] : List ℚ).length ∧
      v1.length = ([(0 : ℚ)] : List ℚ).length ∧
      ∀ t, t < ([(0 : ℚ)] : List ℚ).length →
        (v0.getD t []).length = ([0] : List Nat).length ∧
        (v1.getD t []).length = ([0] : List Nat).length :=
  load_property_sized_by_count [(0 : ℚ)] [⟨[2], [3], [0], [0], [0], [0]⟩]
    [0] (by decide) (by intro tbl ht; rw [List.mem_singleton] at ht; rw [ht]; exact ⟨rfl, rfl⟩)

theorem nematicAngle_zero_one : nematicAngle 0 1 = Real.pi / 4 := by
  rw [nematicAngle, npSign,
      if_neg (by norm_num : ¬(1 : ℝ) < 0),
      if_neg (by norm_num : ¬(1 : ℝ) = 0)]
  norm_num [Real.arctan_zero]

theorem nematicAngle_zero_neg_one : nematicAngle 0 (-1) = -(Real.pi / 4) := by
  rw [nematicAngle, npSign, if_pos (by norm_num : (-1 : ℝ) < 0)]
  rw [abs_neg, abs_one]
  norm_num [Real.arctan_zero]

theorem load_property_nematic_angle_eq (s0 s1 : ℝ) :
    load_property [(0 : ℚ)] [⟨[0], [0], [0], [0], [s0], [s1]⟩] [0]
      "nematic angle" = .ok (some (.one [[nematicAngle s0 s1]])) := by
  rfl

/-- C5: the `'nematic angle'` resolver computes
`sign(S1) * (arctan(S0 / |S1|) / 2 + π/4)` from the full shape-tensor
components, per rank and timestep; in particular `S0full = 0, S1full = 1`
gives `π/4` and `S0full = 0, S1full = -1` gives `-π/4`. -/
theorem nematic_angle_resolver :
    (∀ s0 s1 : ℝ, load_property [(0 : ℚ)] [⟨[0], [0], [0], [0], [s0], [s1]⟩]
      [0] "nematic angle" =
        .ok (some (.one [[npSign s1 *
          (Real.arctan (s0 / |s1|) / 2 + Real.pi / 4)]]))) ∧
    load_property [(0 : ℚ)] [⟨[0], [0], [0], [0], [0], [1]⟩] [0]
      "nematic angle" = .ok (some (.one [[Real.pi / 4]])) ∧
    load_property [(0 : ℚ)] [⟨[0], [0], [0], [0], [0], [-1]⟩] [0]
      "nematic angle" = .ok (some (.one [[-(Real.pi / 4)]])) := by
  refine ⟨fun s0 s1 => load_property_nematic_angle_eq s0 s1, ?_, ?_⟩
  · rw [load_property_nematic_angle_eq 0 1, nematicAngle_zero_one]
  · rw [load_property_nematic_angle_eq 0 (-1), nematicAngle_zero_neg_one]

theorem arctan2_mem_Ioc (y x : ℝ) :
    -Real.pi < arctan2 y x ∧ arctan2 y x ≤ Real.pi := by
  have hpi := Real.pi_pos
  have hlt := Real.arctan_lt_pi_div_two (y / x)
  have hgt := Real.neg_pi_div_two_lt_arctan (y / x)
  rw [arctan2]
  split_ifs with h1 h2 h3 h4 h5
  · constructor <;> linarith
  · have hyx : y / x ≤ 0 := div_nonpos_iff.mpr (Or.inl ⟨h3, h2.le⟩)
    have harct : Real.arctan (y / x) ≤ 0 := by
      have := Real.arctan_strictMono.monotone hyx
      rwa [Real.arctan_zero] at this
    constructor <;> linarith
  · have hyx : 0 < y / x := div_pos_iff.mpr (Or.inr ⟨not_le.mp h3, h2⟩)
    have harct : 0 < Real.arctan (y / x) := by
      have := Real.arctan_strictMono hyx
      rwa [Real.arctan_zero] at this
    constructor <;> linarith
  · constructor <;> linarith
  · constructor <;> linarith
  · constructor <;> linarith

theorem arctan2_one_zero : arctan2 0 1 = 0 := by
  rw [arctan2, if_pos (by norm_num : (0 : ℝ) < 1)]
  norm_num [Real.arctan_zero]

theorem arctan2_zero_one : arctan2 1 0 = Real.pi / 2 := by
  rw [arctan2, if_neg (lt_irrefl (0 : ℝ)), if_neg (lt_irrefl (0 : ℝ)),
      if_pos (by norm_num : (0 : ℝ) < 1)]

theorem arctan2_neg_x : arctan2 0 (-1) = Real.pi := by
  rw [arctan2, if_neg (by norm_num : ¬(0 : ℝ) < -1),
      if_pos (by norm_num : (-1 : ℝ) < 0),
      if_pos (le_refl (0 : ℝ))]
  norm_num [Real.arctan_zero]

theorem load_property_velocity_angle_eq (v0 v1 : ℝ) :
    load_property [(0 : ℚ)] [⟨[v0], [v1], [0], [0], [0], [0]⟩] [0]
      "velocity angle" = .ok (some (.one [[arctan2 v1 v0]])) := by
  rfl

/-- C6: the `'velocity angle'` resolver computes `atan2(v1, v0)` per rank
and timestep; its output always lies in `(-π, π]`, and
`v0 = 1, v1 = 0 ↦ 0`, `v0 = 0, v1 = 1 ↦ π/2`, `v0 = -1, v1 = 0 ↦ π`. -/
theorem velocity_angle_resolver :
    (∀ v0 v1 : ℝ, load_property [(0 : ℚ)] [⟨[v0], [v1], [0], [0], [0], [0]⟩]
      [0] "velocity angle" = .ok (some (.one [[arctan2 v1 v0]]))) ∧
    (∀ y x : ℝ, -Real.pi < arctan2 y x ∧ arctan2 y x ≤ Real.pi) ∧
    arctan2 0 1 = 0 ∧ arctan2 1 0 = Real.pi / 2 ∧
    arctan2 0 (-1) = Real.pi :=
  ⟨fun v0 v1 => load_property_velocity_angle_eq v0 v1, arctan2_mem_Ioc,
    arctan2_one_zero, arctan2_zero_one, arctan2_neg_x⟩

/-- C7: any property name other than the five recognized ones makes both
`load_property` and `load_fields` fall off the end of the Python function
— a silent `None`, not an error. -/
theorem unrecognized_prop_none (rankfield : List (List (List Int)))
    (times : List ℚ) (positions : List (CellTable ℝ)) (ranks : List Nat)
    (prop : String)
    (hp : prop ∉ ["velocity", "normalised nematic", "nematic",
      "velocity angle", "nematic angle"]) :
    load_property times positions ranks prop = .ok none ∧
    load_fields rankfield times positions ranks prop = .ok none := by
  simp only [List.mem_cons, List.not_mem_nil, or_false, not_or] at hp
  obtain ⟨h1, h2, h3, h4, h5⟩ := hp
  have hA : prop ∉ prop2D := by
    simp only [prop2D, List.mem_cons, List.not_mem_nil, or_false, not_or]
    exact ⟨h1, h2, h3⟩
  have hB : prop ∉ prop1D := by
    simp only [prop1D, List.mem_cons, List.not_mem_nil, or_false, not_or]
    exact ⟨h4, h5⟩
  constructor
  · rw [load_property, if_neg h1, if_neg h2, if_neg h3, if_neg h4, if_neg h5]
  · rw [load_fields, if_neg hA, if_neg hB]

/-- Witness for C7 at a concrete unrecognized name. -/
theorem unrecognized_prop_none_witness :
    load_property [] [] [] "growth" = .ok none ∧
    load_fields [] [] [] [] "growth" = .ok none :=
  unrecognized_prop_none [] [] [] [] "growth" (by decide)

end LoadFiles
